import Mathlib

/-!
Verification of the dbus-aggregate-batteries repository: the charge-mode
aggregator (modelled from the specification, since only its test suite is
present in the sources) and the VE.Direct shunt monitor
(`vedirect_shunt_monitor.py`), embedded shallowly.
-/

/-- The three aggregated charge modes of the battery fleet. -/
inductive AggregatedChargeMode where
  | BULK_OR_ABSORPTION
  | FLOAT_TRANSITION
  | FLOAT
deriving DecidableEq, Repr

/-- A label reports a ramp phase when it is `Bulk` or `Absorption`. -/
def isRampLabel (l : String) : Bool := l == "Bulk" || l == "Absorption"

/-- Some label of the cycle is `Bulk` or `Absorption`. -/
def hasRamp (labels : List String) : Bool := labels.any isRampLabel

/-- Some label of the cycle is `Float Transition`. -/
def hasTransition (labels : List String) : Bool :=
  labels.any (fun l => l == "Float Transition")

/-- Some label of the cycle is `Float`. -/
def hasFloatLabel (labels : List String) : Bool :=
  labels.any (fun l => l == "Float")

/-- Modelled from the spec: the aggregator's `_update_aggregated_charge_mode`
lives in `dbus-aggregate-batteries.py`, which is not among the sources (only
its tests are).  The transition rule follows spec section 4.1: a mixed fleet
(ramp together with transition or float) keeps the stored mode, otherwise the
first matching category wins, and an empty input keeps the stored mode. -/
def advanceMode (mode : AggregatedChargeMode) (labels : List String) :
    AggregatedChargeMode :=
  if hasRamp labels && (hasTransition labels || hasFloatLabel labels) then mode
  else if hasRamp labels then .BULK_OR_ABSORPTION
  else if hasTransition labels then .FLOAT_TRANSITION
  else if hasFloatLabel labels then .FLOAT
  else mode

/-- Minimum of a list, `none` on the empty list (Python's `min` raises there). -/
def listMin {α : Type} [LinearOrder α] : List α → Option α
  | [] => none
  | x :: xs =>
    match listMin xs with
    | none => some x
    | some y => some (min x y)

/-- Maximum of a list, `none` on the empty list (Python's `max` raises there). -/
def listMax {α : Type} [LinearOrder α] : List α → Option α
  | [] => none
  | x :: xs =>
    match listMax xs with
    | none => some x
    | some y => some (max x y)

theorem listMin_eq_none_iff {α : Type} [LinearOrder α] {l : List α} :
    listMin l = none ↔ l = [] := by
  cases l with
  | nil => simp [listMin]
  | cons x xs =>
    simp only [listMin]
    cases listMin xs <;> simp

theorem listMin_eq_some_iff {α : Type} [LinearOrder α] {l : List α} {x : α} :
    listMin l = some x ↔ x ∈ l ∧ ∀ y ∈ l, x ≤ y := by
  induction l generalizing x with
  | nil => simp [listMin]
  | cons a as ih =>
    simp only [listMin]
    cases h : listMin as with
    | none =>
      have hnil : as = [] := listMin_eq_none_iff.mp h
      subst hnil
      constructor
      · rintro ⟨rfl⟩
        simp
      · rintro ⟨hmem, hle⟩
        simp only [List.mem_singleton] at hmem
        simp [hmem]
    | some y =>
      have hy := (ih (x := y)).mp h
      constructor
      · rintro ⟨rfl⟩
        rcases le_total a y with hay | hya
        · rw [min_eq_left hay]
          refine ⟨List.mem_cons_self a as, ?_⟩
          intro z hz
          rcases List.mem_cons.mp hz with rfl | hz
          · exact le_refl z
          · exact le_trans hay (hy.2 z hz)
        · rw [min_eq_right hya]
          refine ⟨List.mem_cons_of_mem a hy.1, ?_⟩
          intro z hz
          rcases List.mem_cons.mp hz with rfl | hz
          · exact hya
          · exact hy.2 z hz
      · rintro ⟨hmem, hle⟩
        have hxa : x ≤ a := hle a (List.mem_cons_self a as)
        have hxy : x ≤ y := hle y (List.mem_cons_of_mem a hy.1)
        have hge : min a y ≤ x := by
          rcases List.mem_cons.mp hmem with rfl | hmem
          · exact min_le_left _ y
          · exact le_trans (min_le_right a y) (hy.2 x hmem)
        exact congrArg some (le_antisymm hge (le_min hxa hxy))

theorem listMax_eq_none_iff {α : Type} [LinearOrder α] {l : List α} :
    listMax l = none ↔ l = [] := by
  cases l with
  | nil => simp [listMax]
  | cons x xs =>
    simp only [listMax]
    cases listMax xs <;> simp

theorem listMax_eq_some_iff {α : Type} [LinearOrder α] {l : List α} {x : α} :
    listMax l = some x ↔ x ∈ l ∧ ∀ y ∈ l, y ≤ x := by
  induction l generalizing x with
  | nil => simp [listMax]
  | cons a as ih =>
    simp only [listMax]
    cases h : listMax as with
    | none =>
      have hnil : as = [] := listMax_eq_none_iff.mp h
      subst hnil
      constructor
      · rintro ⟨rfl⟩
        simp
      · rintro ⟨hmem, hle⟩
        simp only [List.mem_singleton] at hmem
        simp [hmem]
    | some y =>
      have hy := (ih (x := y)).mp h
      constructor
      · rintro ⟨rfl⟩
        rcases le_total a y with hay | hya
        · rw [max_eq_right hay]
          refine ⟨List.mem_cons_of_mem a hy.1, ?_⟩
          intro z hz
          rcases List.mem_cons.mp hz with rfl | hz
          · exact hay
          · exact hy.2 z hz
        · rw [max_eq_left hya]
          refine ⟨List.mem_cons_self a as, ?_⟩
          intro z hz
          rcases List.mem_cons.mp hz with rfl | hz
          · exact le_refl z
          · exact le_trans (hy.2 z hz) hya
      · rintro ⟨hmem, hle⟩
        have hxa : a ≤ x := hle a (List.mem_cons_self a as)
        have hxy : y ≤ x := hle y (List.mem_cons_of_mem a hy.1)
        have hge : x ≤ max a y := by
          rcases List.mem_cons.mp hmem with rfl | hmem
          · exact le_max_left _ y
          · exact le_trans (hy.2 x hmem) (le_max_right a y)
        exact congrArg some (le_antisymm (max_le hxa hxy) hge)

/-- The voltages of the ramp-labeled (`Bulk`/`Absorption`) entries, in order. -/
def rampVolts (voltages : List ℚ) (labels : List String) : List ℚ :=
  ((voltages.zip labels).filter (fun p => isRampLabel p.2)).map Prod.fst

/-- The voltages of the `Float Transition` entries, in order. -/
def transVolts (voltages : List ℚ) (labels : List String) : List ℚ :=
  ((voltages.zip labels).filter (fun p => p.2 == "Float Transition")).map Prod.fst

/-- Modelled from the spec: `_get_cvl_with_aggregated_charge_mode` lives in
`dbus-aggregate-batteries.py`, which is not among the sources (only its tests
are).  Per spec section 4.1: under `BULK_OR_ABSORPTION` the minimum over
ramp-labeled voltages; under `FLOAT_TRANSITION` the maximum over
`Float Transition` voltages, capped by the ramp minimum when ramp entries
exist; under `FLOAT` the minimum over all voltages.  An empty candidate set is
a caller contract violation, surfaced as `none`. -/
def combinedVoltageLimit (mode : AggregatedChargeMode) (voltages : List ℚ)
    (labels : List String) : Option ℚ :=
  match mode with
  | .BULK_OR_ABSORPTION => listMin (rampVolts voltages labels)
  | .FLOAT_TRANSITION =>
    match listMax (transVolts voltages labels) with
    | none => none
    | some t =>
      match listMin (rampVolts voltages labels) with
      | none => some t
      | some r => some (min t r)
  | .FLOAT => listMin ((voltages.zip labels).map Prod.fst)

/-- C1: for every label sequence that either mixes a ramp label (`Bulk` or
`Absorption`) with a `Float` or `Float Transition` label, or is empty,
`advanceMode` leaves the stored aggregated charge mode exactly as it was, for
every possible prior mode. -/
theorem advanceMode_mixed_or_empty_noop (mode : AggregatedChargeMode)
    (labels : List String)
    (h : (hasRamp labels = true ∧
          (hasTransition labels = true ∨ hasFloatLabel labels = true)) ∨
         labels = []) :
    advanceMode mode labels = mode := by
  rcases h with ⟨h1, h2⟩ | rfl
  · unfold advanceMode
    rcases h2 with h2 | h2 <;> simp [h1, h2]
  · simp [advanceMode, hasRamp, hasTransition, hasFloatLabel]

/-- Witness for C1 at the concrete mixed input `["Bulk", "Float"]`. -/
theorem advanceMode_mixed_or_empty_noop_witness :
    advanceMode .FLOAT ["Bulk", "Float"] = .FLOAT :=
  advanceMode_mixed_or_empty_noop .FLOAT ["Bulk", "Float"]
    (Or.inl ⟨by decide, Or.inr (by decide)⟩)

/-- C2: for every non-empty, non-mixed label sequence drawn from the four
known labels, `advanceMode` sets the stored mode as a function of the labels
alone, independent of the prior mode: `BULK_OR_ABSORPTION` when every label is
`Bulk`/`Absorption`, otherwise `FLOAT_TRANSITION` when some label is
`Float Transition`, otherwise `FLOAT` — and in that last case every label is
in fact `Float`. -/
theorem advanceMode_unmixed_determined (mode mode' : AggregatedChargeMode)
    (labels : List String) (hne : labels ≠ [])
    (hclosed : ∀ l ∈ labels,
      l = "Bulk" ∨ l = "Absorption" ∨ l = "Float Transition" ∨ l = "Float")
    (hunmixed : ¬(hasRamp labels = true ∧
      (hasTransition labels = true ∨ hasFloatLabel labels = true))) :
    advanceMode mode labels =
      (if labels.all isRampLabel then .BULK_OR_ABSORPTION
       else if hasTransition labels then .FLOAT_TRANSITION
       else .FLOAT) ∧
    (labels.all isRampLabel = false → hasTransition labels = false →
      labels.all (fun l => l == "Float") = true) ∧
    advanceMode mode labels = advanceMode mode' labels := by
  have hex : ∃ l, l ∈ labels := by
    cases labels with
    | nil => exact absurd rfl hne
    | cons a as => exact ⟨a, List.mem_cons_self a as⟩
  cases hr : hasRamp labels with
  | true =>
    have hnt : hasTransition labels = false := by
      cases ht : hasTransition labels with
      | false => rfl
      | true => exact absurd ⟨hr, Or.inl ht⟩ hunmixed
    have hnf : hasFloatLabel labels = false := by
      cases hf : hasFloatLabel labels with
      | false => rfl
      | true => exact absurd ⟨hr, Or.inr hf⟩ hunmixed
    have hall : labels.all isRampLabel = true := by
      rw [List.all_eq_true]
      intro l hl
      rcases hclosed l hl with h | h | h | h
      · simp [isRampLabel, h]
      · simp [isRampLabel, h]
      · exfalso
        have hT : hasTransition labels = true := by
          rw [hasTransition, List.any_eq_true]
          exact ⟨l, hl, by simp [h]⟩
        rw [hT] at hnt
        exact Bool.noConfusion hnt
      · exfalso
        have hF : hasFloatLabel labels = true := by
          rw [hasFloatLabel, List.any_eq_true]
          exact ⟨l, hl, by simp [h]⟩
        rw [hF] at hnf
        exact Bool.noConfusion hnf
    refine ⟨?_, ?_, ?_⟩
    · simp [advanceMode, hr, hnt, hnf, hall]
    · intro hfalse _
      rw [hall] at hfalse
      exact Bool.noConfusion hfalse
    · simp [advanceMode, hr, hnt, hnf]
  | false =>
    have hnone : ∀ l ∈ labels, isRampLabel l = false := by
      intro l hl
      cases hrl : isRampLabel l with
      | false => rfl
      | true =>
        have hR : hasRamp labels = true := by
          rw [hasRamp, List.any_eq_true]
          exact ⟨l, hl, hrl⟩
        rw [hR] at hr
        exact Bool.noConfusion hr
    have hallramp : labels.all isRampLabel = false := by
      obtain ⟨l, hl⟩ := hex
      cases hall : labels.all isRampLabel with
      | false => rfl
      | true =>
        have h1 := List.all_eq_true.mp hall l hl
        rw [hnone l hl] at h1
        exact Bool.noConfusion h1
    cases ht : hasTransition labels with
    | true =>
      refine ⟨?_, ?_, ?_⟩
      · simp [advanceMode, hr, ht, hallramp]
      · intro _ hfalse
        exact Bool.noConfusion hfalse
      · simp [advanceMode, hr, ht]
    | false =>
      have hallfloat : ∀ l ∈ labels, l = "Float" := by
        intro l hl
        rcases hclosed l hl with h | h | h | h
        · exfalso
          have h1 := hnone l hl
          rw [h] at h1
          exact Bool.noConfusion h1
        · exfalso
          have h1 := hnone l hl
          rw [h] at h1
          exact Bool.noConfusion h1
        · exfalso
          have hT : hasTransition labels = true := by
            rw [hasTransition, List.any_eq_true]
            exact ⟨l, hl, by simp [h]⟩
          rw [hT] at ht
          exact Bool.noConfusion ht
        · exact h
      have hfl : hasFloatLabel labels = true := by
        obtain ⟨l, hl⟩ := hex
        rw [hasFloatLabel, List.any_eq_true]
        exact ⟨l, hl, by simp [hallfloat l hl]⟩
      refine ⟨?_, ?_, ?_⟩
      · simp [advanceMode, hr, ht, hfl, hallramp]
      · intro _ _
        rw [List.all_eq_true]
        intro l hl
        simp [hallfloat l hl]
      · simp [advanceMode, hr, ht, hfl]

/-- Witness for C2 at the concrete input `["Float", "Float Transition"]`. -/
theorem advanceMode_unmixed_determined_witness :
    advanceMode .BULK_OR_ABSORPTION ["Float", "Float Transition"] =
      .FLOAT_TRANSITION := by
  have h := advanceMode_unmixed_determined .BULK_OR_ABSORPTION .FLOAT
    ["Float", "Float Transition"] (by decide) (by decide) (by decide)
  rw [h.1]
  decide

/-- C3: when the stored mode is `BULK_OR_ABSORPTION`, the combined voltage
limit is the minimum voltage among the `Bulk`/`Absorption`-labeled entries of
any pair sequence containing at least one such entry, and entries carrying
other labels never affect the result. -/
theorem cvl_bulk_or_absorption_min_ramp (voltages : List ℚ)
    (labels : List String)
    (h : ∃ p ∈ voltages.zip labels, isRampLabel p.2 = true) :
    ∃ v, combinedVoltageLimit .BULK_OR_ABSORPTION voltages labels = some v ∧
      v ∈ rampVolts voltages labels ∧
      (∀ w ∈ rampVolts voltages labels, v ≤ w) ∧
      (∀ voltages' labels',
        rampVolts voltages' labels' = rampVolts voltages labels →
        combinedVoltageLimit .BULK_OR_ABSORPTION voltages' labels' =
          combinedVoltageLimit .BULK_OR_ABSORPTION voltages labels) := by
  obtain ⟨p, hp, hramp⟩ := h
  have hne : rampVolts voltages labels ≠ [] := by
    intro hnil
    have hmem : p.1 ∈ rampVolts voltages labels :=
      List.mem_map_of_mem Prod.fst (List.mem_filter.mpr ⟨hp, hramp⟩)
    rw [hnil] at hmem
    exact List.not_mem_nil _ hmem
  cases hm : listMin (rampVolts voltages labels) with
  | none => exact absurd (listMin_eq_none_iff.mp hm) hne
  | some v =>
    obtain ⟨hmem, hle⟩ := listMin_eq_some_iff.mp hm
    refine ⟨v, ?_, hmem, hle, ?_⟩
    · simp [combinedVoltageLimit, hm]
    · intro voltages' labels' heq
      simp [combinedVoltageLimit, heq]

/-- Witness for C3 at voltages `[55, 56, 54]`, labels
`["Bulk", "Bulk", "Float"]`: the float entry's lower voltage is ignored. -/
theorem cvl_bulk_or_absorption_min_ramp_witness :
    combinedVoltageLimit .BULK_OR_ABSORPTION [55, 56, 54]
      ["Bulk", "Bulk", "Float"] = some 55 := by
  obtain ⟨v, hv, hmem, hle, -⟩ := cvl_bulk_or_absorption_min_ramp [55, 56, 54]
    ["Bulk", "Bulk", "Float"] ⟨(55, "Bulk"), by decide, by decide⟩
  have hr : rampVolts [55, 56, 54] ["Bulk", "Bulk", "Float"] = [55, 56] := by
    decide
  rw [hr] at hmem hle
  rcases (by simpa using hmem : v = 55 ∨ v = 56) with rfl | rfl
  · exact hv
  · exact absurd (hle 55 (by simp)) (by norm_num)

/-- C4: when the stored mode is `FLOAT_TRANSITION`, the combined limit is the
maximum `Float Transition` voltage, capped by the minimum ramp voltage when a
ramp entry exists and uncapped when none does; `Float`-labeled voltages never
affect the result. -/
theorem cvl_float_transition_capped_max (voltages : List ℚ)
    (labels : List String)
    (h : ∃ p ∈ voltages.zip labels, p.2 = "Float Transition") :
    ∃ t, listMax (transVolts voltages labels) = some t ∧
      t ∈ transVolts voltages labels ∧
      (∀ w ∈ transVolts voltages labels, w ≤ t) ∧
      (rampVolts voltages labels = [] →
        combinedVoltageLimit .FLOAT_TRANSITION voltages labels = some t) ∧
      (∀ r, listMin (rampVolts voltages labels) = some r →
        combinedVoltageLimit .FLOAT_TRANSITION voltages labels =
          some (min t r)) ∧
      (∀ voltages' labels',
        transVolts voltages' labels' = transVolts voltages labels →
        rampVolts voltages' labels' = rampVolts voltages labels →
        combinedVoltageLimit .FLOAT_TRANSITION voltages' labels' =
          combinedVoltageLimit .FLOAT_TRANSITION voltages labels) := by
  obtain ⟨p, hp, htl⟩ := h
  have hne : transVolts voltages labels ≠ [] := by
    intro hnil
    have hmem : p.1 ∈ transVolts voltages labels :=
      List.mem_map_of_mem Prod.fst
        (List.mem_filter.mpr ⟨hp, by simp [htl]⟩)
    rw [hnil] at hmem
    exact List.not_mem_nil _ hmem
  cases hm : listMax (transVolts voltages labels) with
  | none => exact absurd (listMax_eq_none_iff.mp hm) hne
  | some t =>
    obtain ⟨hmem, hle⟩ := listMax_eq_some_iff.mp hm
    refine ⟨t, rfl, hmem, hle, ?_, ?_, ?_⟩
    · intro hnil
      have hmin : listMin (rampVolts voltages labels) = none :=
        listMin_eq_none_iff.mpr hnil
      simp [combinedVoltageLimit, hm, hmin]
    · intro r hr
      simp [combinedVoltageLimit, hm, hr]
    · intro voltages' labels' heqt heqr
      simp [combinedVoltageLimit, heqt, heqr]

/-- Witness for C4 at voltages `[56, 57, 55]`, labels
`["Float Transition", "Bulk", "Bulk"]`: the transition maximum 56 is capped by
the ramp minimum 55. -/
theorem cvl_float_transition_capped_max_witness :
    combinedVoltageLimit .FLOAT_TRANSITION [56, 57, 55]
      ["Float Transition", "Bulk", "Bulk"] = some 55 := by
  obtain ⟨t, -, hmem, -, -, hcap, -⟩ := cvl_float_transition_capped_max
    [56, 57, 55] ["Float Transition", "Bulk", "Bulk"]
    ⟨(56, "Float Transition"), by decide, rfl⟩
  have htv : transVolts [56, 57, 55] ["Float Transition", "Bulk", "Bulk"] =
      [56] := by decide
  rw [htv] at hmem
  have ht : t = 56 := by simpa using hmem
  have hr : listMin (rampVolts [56, 57, 55]
      ["Float Transition", "Bulk", "Bulk"]) = some 55 := by decide
  rw [hcap 55 hr, ht]
  norm_num

/-- C5: when the stored mode is `FLOAT`, the combined limit is the minimum
voltage across all entries of every non-empty pair sequence, independent of
the labels. -/
theorem cvl_float_global_min (voltages : List ℚ) (labels : List String)
    (hne : voltages ≠ []) (hlen : voltages.length ≤ labels.length) :
    ∃ v, combinedVoltageLimit .FLOAT voltages labels = some v ∧
      v ∈ voltages ∧ (∀ w ∈ voltages, v ≤ w) ∧
      (∀ labels', voltages.length ≤ labels'.length →
        combinedVoltageLimit .FLOAT voltages labels' =
          combinedVoltageLimit .FLOAT voltages labels) := by
  have hz : (voltages.zip labels).map Prod.fst = voltages :=
    List.map_fst_zip voltages labels hlen
  cases hm : listMin ((voltages.zip labels).map Prod.fst) with
  | none =>
    rw [hz] at hm
    exact absurd (listMin_eq_none_iff.mp hm) hne
  | some v =>
    rw [hz] at hm
    obtain ⟨hmem, hle⟩ := listMin_eq_some_iff.mp hm
    refine ⟨v, ?_, hmem, hle, ?_⟩
    · simp [combinedVoltageLimit, hz, hm]
    · intro labels' hlen'
      have hz' : (voltages.zip labels').map Prod.fst = voltages :=
        List.map_fst_zip voltages labels' hlen'
      simp [combinedVoltageLimit, hz, hz']

/-- Witness for C5 at voltages `[56, 55, 54]`, labels
`["Bulk", "Float Transition", "Float"]`: the global minimum 54 is returned. -/
theorem cvl_float_global_min_witness :
    combinedVoltageLimit .FLOAT [56, 55, 54]
      ["Bulk", "Float Transition", "Float"] = some 54 := by
  obtain ⟨v, hv, hmem, hle, -⟩ := cvl_float_global_min [56, 55, 54]
    ["Bulk", "Float Transition", "Float"] (by decide) (by decide)
  rcases (by simpa using hmem : v = 56 ∨ v = 55 ∨ v = 54) with rfl | rfl | rfl
  · exact absurd (hle 54 (by simp)) (by norm_num)
  · exact absurd (hle 54 (by simp)) (by norm_num)
  · exact hv

/-- Split a byte buffer at its first newline byte (10): the line before it
and the remainder after it, `none` when no newline is present.  Mirrors the
`b"\n" in self.buffer` test, `self.buffer.index(b"\n")` and the two slices in
`VeDirectParser.next_frame`. -/
def takeLine : List Nat → Option (List Nat × List Nat)
  | [] => none
  | b :: bs =>
    if b = 10 then some ([], bs)
    else (takeLine bs).map (fun q => (b :: q.1, q.2))

/-- Python `bytes.decode("ascii", errors="replace")`: bytes below 128 decode
to themselves, every other byte to U+FFFD.  This decoding never raises, so the
`except` around it in `next_frame` is unreachable. -/
def decodeAscii (l : List Nat) : List Char :=
  l.map (fun b => if b < 128 then Char.ofNat b else Char.ofNat 0xFFFD)

/-- Python `line_str.split("\t", 1)`: the text before the first tab and the
whole remainder after it (which may itself contain tabs).  With a tab present
the split always has exactly two parts, so the `len(parts) == 2` guard in
`next_frame` always holds there. -/
def splitTab1 : List Char → List Char × List Char
  | [] => ([], [])
  | c :: cs =>
    if c = '\t' then ([], cs)
    else
      let q := splitTab1 cs
      (c :: q.1, q.2)

/-- Python whitespace for `str.strip`, restricted to the ASCII range that
`decodeAscii` can produce (U+FFFD is not whitespace). -/
def isPySpace (c : Char) : Bool :=
  c = ' ' || c = '\t' || c = '\n' || c = '\r' || c = '\x0b' || c = '\x0c'

/-- Python `str.strip()`: drop leading and trailing whitespace. -/
def pyStrip (l : List Char) : List Char :=
  ((l.dropWhile isPySpace).reverse.dropWhile isPySpace).reverse

/-- `self.frame_data[key] = value` on a Python dict, modelled as an
association list: overwrite an existing binding in place, else append. -/
def insertKV (fd : List (List Char × List Char)) (k v : List Char) :
    List (List Char × List Char) :=
  match fd with
  | [] => [(k, v)]
  | (k', v') :: rest =>
    if k' = k then (k', v) :: rest else (k', v') :: insertKV rest k v

/-- Python `frame.get(key)` on the association-list model of a dict. -/
def lookupKV (fd : List (List Char × List Char)) (k : List Char) :
    Option (List Char) :=
  match fd with
  | [] => none
  | (k', v') :: rest => if k' = k then some v' else lookupKV rest k

/-- State of `VeDirectParser`: raw byte buffer, in-progress frame mapping and
running checksum accumulator. -/
structure VeDirectParser where
  buffer : List Nat
  frame_data : List (List Char × List Char)
  checksum : Nat
deriving DecidableEq, Repr

/-- `VeDirectParser.feed`: append the bytes; when the buffer exceeds 8192
bytes keep only the most recent 4096 (`self.buffer[-4096:]`) and reset the
in-progress frame mapping and checksum accumulator. -/
def feed (p : VeDirectParser) (data : List Nat) : VeDirectParser :=
  let buf := p.buffer ++ data
  if buf.length > 8192 then
    { buffer := buf.drop (buf.length - 4096), frame_data := [], checksum := 0 }
  else
    { p with buffer := buf }

theorem takeLine_append (l : List Nat) :
    ∀ line rest, takeLine l = some (line, rest) →
      l = line ++ 10 :: rest ∧ 10 ∉ line := by
  induction l with
  | nil =>
    intro line rest h
    exact Option.noConfusion h
  | cons b bs ih =>
    intro line rest h
    by_cases hb : b = 10
    · subst hb
      rw [takeLine, if_pos rfl] at h
      have hp := Option.some.inj h
      obtain ⟨rfl, rfl⟩ : line = [] ∧ rest = bs :=
        ⟨(congrArg Prod.fst hp).symm, (congrArg Prod.snd hp).symm⟩
      simp
    · simp only [takeLine, if_neg hb, Option.map_eq_some'] at h
      obtain ⟨⟨l1, r1⟩, hq, heq⟩ := h
      obtain ⟨hbs, hnot⟩ := ih l1 r1 hq
      have hl : line = b :: l1 := (congrArg Prod.fst heq).symm
      have hr : rest = r1 := (congrArg Prod.snd heq).symm
      subst hl
      subst hr
      constructor
      · rw [hbs]
        simp
      · intro hmem
        rcases List.mem_cons.mp hmem with h10 | h10
        · exact hb h10.symm
        · exact hnot h10

theorem takeLine_rest_length {l line rest : List Nat}
    (h : takeLine l = some (line, rest)) : rest.length < l.length := by
  obtain ⟨heq, -⟩ := takeLine_append l line rest h
  rw [heq]
  simp [List.length_append]
  omega

/-- A finished frame: the accumulated key/value mapping together with the
`_checksum_valid` flag that `next_frame` attaches to it. -/
abbrev VeFrame := List (List Char × List Char) × Bool

/-- `VeDirectParser.next_frame`: consume newline-terminated lines, adding
every consumed byte (newline included) to the checksum accumulator; skip
empty lines; store every tab-containing line as a stripped key/value pair;
a stored key equal to `Checksum` finishes the frame, with validity
`checksum & 0xFF == 0` (written `% 256` here), and resets the mapping and
accumulator.  Returns `none` once no full line remains. -/
def nextFrame (p : VeDirectParser) : Option VeFrame × VeDirectParser :=
  match h : takeLine p.buffer with
  | none => (none, p)
  | some (line, rest) =>
    let cs := p.checksum + (line.sum + 10)
    if line = [] then
      nextFrame { buffer := rest, frame_data := p.frame_data, checksum := cs }
    else if (decodeAscii line).contains '\t' then
      let key := pyStrip (splitTab1 (decodeAscii line)).1
      let value := pyStrip (splitTab1 (decodeAscii line)).2
      let fd := insertKV p.frame_data key value
      if key = "Checksum".data then
        (some (fd, cs % 256 == 0),
          { buffer := rest, frame_data := [], checksum := 0 })
      else
        nextFrame { buffer := rest, frame_data := fd, checksum := cs }
    else
      nextFrame { buffer := rest, frame_data := p.frame_data, checksum := cs }
termination_by p.buffer.length
decreasing_by
  all_goals simpa using takeLine_rest_length h

/-- The key under which `next_frame` stores a consumed line, `none` for lines
it skips (empty lines and lines without a tab). -/
def lineKey (line : List Nat) : Option (List Char) :=
  if line = [] then none
  else if (decodeAscii line).contains '\t' then
    some (pyStrip (splitTab1 (decodeAscii line)).1)
  else none

/-- The value `next_frame` stores for a tab-containing line: the stripped
remainder after the first tab. -/
def lineValue (line : List Nat) : List Char :=
  pyStrip (splitTab1 (decodeAscii line)).2

/-- The keys of the key/value lines among the complete lines of a byte run,
in consumption order. -/
def consumedKeys (bytes : List Nat) : List (List Char) :=
  match h : takeLine bytes with
  | none => []
  | some (line, rest) =>
    match lineKey line with
    | none => consumedKeys rest
    | some k => k :: consumedKeys rest
termination_by bytes.length
decreasing_by all_goals simpa using takeLine_rest_length h

/-- The frame mapping accumulated over the complete lines of a byte run,
starting from a given in-progress mapping. -/
def accumKV (fd : List (List Char × List Char)) (bytes : List Nat) :
    List (List Char × List Char) :=
  match h : takeLine bytes with
  | none => fd
  | some (line, rest) =>
    match lineKey line with
    | none => accumKV fd rest
    | some k => accumKV (insertKV fd k (lineValue line)) rest
termination_by bytes.length
decreasing_by all_goals simpa using takeLine_rest_length h

theorem takeLine_of_append {line rest : List Nat} (h : 10 ∉ line) :
    takeLine (line ++ 10 :: rest) = some (line, rest) := by
  induction line with
  | nil => simp [takeLine]
  | cons b bs ih =>
    have hb : ¬(b = 10) := fun hbe => h (hbe ▸ List.mem_cons_self b bs)
    rw [List.cons_append, takeLine, if_neg hb,
      ih (fun hm => h (List.mem_cons_of_mem b hm))]
    rfl

theorem consumedKeys_nil : consumedKeys [] = [] := by
  rw [consumedKeys]
  split
  · rfl
  · next l r heq => simp [takeLine] at heq

theorem accumKV_nil (fd : List (List Char × List Char)) : accumKV fd [] = fd := by
  rw [accumKV]
  split
  · rfl
  · next l r heq => simp [takeLine] at heq

theorem consumedKeys_line {bytes line tail : List Nat}
    (h : takeLine bytes = some (line, tail)) :
    consumedKeys bytes =
      match lineKey line with
      | none => consumedKeys tail
      | some k => k :: consumedKeys tail := by
  rw [consumedKeys]
  split
  · next heq =>
    rw [h] at heq
    exact Option.noConfusion heq
  · next l r heq =>
    rw [h] at heq
    have hp := Option.some.inj heq
    obtain ⟨rfl, rfl⟩ : line = l ∧ tail = r :=
      ⟨congrArg Prod.fst hp, congrArg Prod.snd hp⟩
    rfl

theorem accumKV_line (fd : List (List Char × List Char))
    {bytes line tail : List Nat} (h : takeLine bytes = some (line, tail)) :
    accumKV fd bytes =
      match lineKey line with
      | none => accumKV fd tail
      | some k => accumKV (insertKV fd k (lineValue line)) tail := by
  rw [accumKV]
  split
  · next heq =>
    rw [h] at heq
    exact Option.noConfusion heq
  · next l r heq =>
    rw [h] at heq
    have hp := Option.some.inj heq
    obtain ⟨rfl, rfl⟩ : line = l ∧ tail = r :=
      ⟨congrArg Prod.fst hp, congrArg Prod.snd hp⟩
    rfl

theorem lookupKV_insertKV_self (fd : List (List Char × List Char))
    (k v : List Char) : lookupKV (insertKV fd k v) k = some v := by
  induction fd with
  | nil => simp [insertKV, lookupKV]
  | cons kv rest ih =>
    obtain ⟨k', v'⟩ := kv
    by_cases hk : k' = k
    · simp [insertKV, lookupKV, hk]
    · simp [insertKV, lookupKV, hk, ih]

theorem nextFrame_none {p : VeDirectParser} (h : takeLine p.buffer = none) :
    nextFrame p = (none, p) := by
  rw [nextFrame]
  split
  · rfl
  · next l r heq =>
    rw [h] at heq
    exact Option.noConfusion heq

theorem nextFrame_some {p : VeDirectParser} {line rest : List Nat}
    (h : takeLine p.buffer = some (line, rest)) :
    nextFrame p =
      if line = [] then
        nextFrame { buffer := rest
                    frame_data := p.frame_data
                    checksum := p.checksum + (line.sum + 10) }
      else if (decodeAscii line).contains '\t' then
        if pyStrip (splitTab1 (decodeAscii line)).1 = "Checksum".data then
          (some (insertKV p.frame_data (pyStrip (splitTab1 (decodeAscii line)).1)
              (pyStrip (splitTab1 (decodeAscii line)).2),
            (p.checksum + (line.sum + 10)) % 256 == 0),
            { buffer := rest, frame_data := [], checksum := 0 })
        else
          nextFrame { buffer := rest
                      frame_data := insertKV p.frame_data
                        (pyStrip (splitTab1 (decodeAscii line)).1)
                        (pyStrip (splitTab1 (decodeAscii line)).2)
                      checksum := p.checksum + (line.sum + 10) }
      else
        nextFrame { buffer := rest
                    frame_data := p.frame_data
                    checksum := p.checksum + (line.sum + 10) } := by
  rw [nextFrame]
  split
  · next heq =>
    rw [h] at heq
    exact Option.noConfusion heq
  · next l r heq =>
    rw [h] at heq
    have hp := Option.some.inj heq
    obtain ⟨rfl, rfl⟩ : line = l ∧ rest = r :=
      ⟨congrArg Prod.fst hp, congrArg Prod.snd hp⟩
    rfl

theorem consumedKeys_append_kv {line c : List Nat} (h10 : 10 ∉ line)
    {k : List Char} (hk : lineKey line = some k) :
    consumedKeys (line ++ 10 :: c) = k :: consumedKeys c := by
  rw [consumedKeys_line (takeLine_of_append h10), hk]

theorem consumedKeys_append_skip {line c : List Nat} (h10 : 10 ∉ line)
    (hk : lineKey line = none) :
    consumedKeys (line ++ 10 :: c) = consumedKeys c := by
  rw [consumedKeys_line (takeLine_of_append h10), hk]

theorem accumKV_append_kv (fd : List (List Char × List Char))
    {line c : List Nat} (h10 : 10 ∉ line) {k : List Char}
    (hk : lineKey line = some k) :
    accumKV fd (line ++ 10 :: c) = accumKV (insertKV fd k (lineValue line)) c := by
  rw [accumKV_line fd (takeLine_of_append h10), hk]

theorem accumKV_append_skip (fd : List (List Char × List Char))
    {line c : List Nat} (h10 : 10 ∉ line) (hk : lineKey line = none) :
    accumKV fd (line ++ 10 :: c) = accumKV fd c := by
  rw [accumKV_line fd (takeLine_of_append h10), hk]

/-- C8: `next_frame` returns a finished frame exactly when a consumed
key/value line's key equals the checksum key `Checksum`: the returned frame
is the mapping accumulated over the consumed lines, its validity flag is true
iff the sum of every byte consumed since the last frame completion (the
accumulator carried in from earlier calls plus this call's consumed bytes,
newlines and skipped lines included) is congruent to 0 mod 256, and the
in-progress mapping and accumulator are reset afterwards; with no consumed
`Checksum`-keyed line, `next_frame` returns `none` and merely accumulates. -/
theorem nextFrame_checksum_characterization (p : VeDirectParser) :
    ∃ consumed : List Nat,
      p.buffer = consumed ++ (nextFrame p).2.buffer ∧
      (∀ f v, (nextFrame p).1 = some (f, v) →
        (consumedKeys consumed).getLast? = some "Checksum".data ∧
        f = accumKV p.frame_data consumed ∧
        lookupKV f "Checksum".data ≠ none ∧
        (v = true ↔ (p.checksum + consumed.sum) % 256 = 0) ∧
        (nextFrame p).2.frame_data = [] ∧
        (nextFrame p).2.checksum = 0) ∧
      ((nextFrame p).1 = none →
        "Checksum".data ∉ consumedKeys consumed ∧
        takeLine (nextFrame p).2.buffer = none ∧
        (nextFrame p).2.frame_data = accumKV p.frame_data consumed ∧
        (nextFrame p).2.checksum = p.checksum + consumed.sum) := by
  induction p using nextFrame.induct with
  | case1 x hnone =>
    have heq := nextFrame_none hnone
    refine ⟨[], ?_, ?_, ?_⟩
    · rw [heq]
      rfl
    · intro f v hfv
      rw [heq] at hfv
      exact Option.noConfusion hfv
    · intro _
      rw [heq]
      exact ⟨by rw [consumedKeys_nil]; simp, hnone,
        (accumKV_nil x.frame_data).symm, by simp⟩
  | case2 x rest htl cs ih =>
    have hb := (takeLine_append x.buffer [] rest htl).1
    have heq : nextFrame x =
        nextFrame { buffer := rest, frame_data := x.frame_data, checksum := cs } := by
      rw [nextFrame_some htl, if_pos rfl]
    obtain ⟨c, hbuf, hsome, hnone⟩ := ih
    have hbuf' : rest = c ++
        (nextFrame { buffer := rest, frame_data := x.frame_data,
                     checksum := cs }).2.buffer := hbuf
    have hlk : lineKey ([] : List Nat) = none := by
      rw [lineKey, if_pos rfl]
    have hck : consumedKeys (10 :: c) = consumedKeys c := by
      rw [show (10 :: c : List Nat) = [] ++ 10 :: c from rfl,
        consumedKeys_append_skip (by simp) hlk]
    have hak : ∀ fd, accumKV fd (10 :: c) = accumKV fd c := by
      intro fd
      rw [show (10 :: c : List Nat) = [] ++ 10 :: c from rfl,
        accumKV_append_skip fd (by simp) hlk]
    have hcs : ({ buffer := rest, frame_data := x.frame_data,
                  checksum := cs } : VeDirectParser).checksum + c.sum =
        x.checksum + (10 :: c).sum := by
      show x.checksum + (List.sum ([] : List Nat) + 10) + c.sum = _
      simp only [List.sum_nil, List.sum_cons]
      omega
    refine ⟨10 :: c, ?_, ?_, ?_⟩
    · rw [heq, hb]
      conv_lhs => rw [hbuf']
      simp
    · intro f v hfv
      rw [heq] at hfv
      obtain ⟨h1, h2, h3, h4, h5, h6⟩ := hsome f v hfv
      rw [heq]
      exact ⟨by rw [hck]; exact h1, by rw [hak]; exact h2, h3,
        by rw [h4, hcs], h5, h6⟩
    · intro hn
      rw [heq] at hn
      obtain ⟨h1, h2, h3, h4⟩ := hnone hn
      rw [heq]
      exact ⟨by rw [hck]; exact h1, h2, by rw [hak]; exact h3,
        by rw [h4, hcs]⟩
  | case3 x line rest htl hne htab key hkeylet =>
    have hkey : pyStrip (splitTab1 (decodeAscii line)).1 = "Checksum".data :=
      hkeylet
    obtain ⟨hb, h10⟩ := takeLine_append x.buffer line rest htl
    have heq := nextFrame_some htl
    rw [if_neg hne, if_pos htab, if_pos hkey] at heq
    have hlk : lineKey line =
        some (pyStrip (splitTab1 (decodeAscii line)).1) := by
      rw [lineKey, if_neg hne, if_pos htab]
    have hconsk : consumedKeys (line ++ [10]) =
        [pyStrip (splitTab1 (decodeAscii line)).1] := by
      rw [show line ++ [10] = line ++ 10 :: ([] : List Nat) from rfl,
        consumedKeys_append_kv h10 hlk, consumedKeys_nil]
    have haccum : accumKV x.frame_data (line ++ [10]) =
        insertKV x.frame_data (pyStrip (splitTab1 (decodeAscii line)).1)
          (pyStrip (splitTab1 (decodeAscii line)).2) := by
      rw [show line ++ [10] = line ++ 10 :: ([] : List Nat) from rfl,
        accumKV_append_kv _ h10 hlk, accumKV_nil]
      rfl
    have hsum : (line ++ [10]).sum = line.sum + 10 := by
      simp [List.sum_append]
    refine ⟨line ++ [10], ?_, ?_, ?_⟩
    · rw [heq, hb]
      simp
    · intro f v hfv
      rw [heq] at hfv
      have hp := Option.some.inj hfv
      have hf : f = insertKV x.frame_data
          (pyStrip (splitTab1 (decodeAscii line)).1)
          (pyStrip (splitTab1 (decodeAscii line)).2) :=
        (congrArg Prod.fst hp).symm
      have hv : v = ((x.checksum + (line.sum + 10)) % 256 == 0) :=
        (congrArg Prod.snd hp).symm
      refine ⟨?_, ?_, ?_, ?_, ?_, ?_⟩
      · rw [hconsk, hkey]
        rfl
      · rw [hf, haccum]
      · rw [hf, ← hkey, lookupKV_insertKV_self]
        exact fun hcon => Option.noConfusion hcon
      · rw [hv, hsum]
        exact beq_iff_eq
      · simp [heq]
      · simp [heq]
    · intro hn
      rw [heq] at hn
      exact Option.noConfusion hn
  | case4 x line rest htl cs hne htab key value fd hkeynelet ih =>
    have hkeyne : ¬pyStrip (splitTab1 (decodeAscii line)).1 =
        "Checksum".data := hkeynelet
    obtain ⟨hb, h10⟩ := takeLine_append x.buffer line rest htl
    have heq : nextFrame x =
        nextFrame { buffer := rest, frame_data := fd, checksum := cs } := by
      rw [nextFrame_some htl, if_neg hne, if_pos htab, if_neg hkeyne]
    obtain ⟨c, hbuf, hsome, hnone⟩ := ih
    have hbuf' : rest = c ++
        (nextFrame { buffer := rest, frame_data := fd,
                     checksum := cs }).2.buffer := hbuf
    have hlk : lineKey line =
        some (pyStrip (splitTab1 (decodeAscii line)).1) := by
      rw [lineKey, if_neg hne, if_pos htab]
    have hconsk : consumedKeys (line ++ 10 :: c) =
        pyStrip (splitTab1 (decodeAscii line)).1 :: consumedKeys c :=
      consumedKeys_append_kv h10 hlk
    have haccum : accumKV x.frame_data (line ++ 10 :: c) = accumKV fd c := by
      rw [accumKV_append_kv _ h10 hlk]
      rfl
    have hcs : ({ buffer := rest, frame_data := fd,
                  checksum := cs } : VeDirectParser).checksum + c.sum =
        x.checksum + (line ++ 10 :: c).sum := by
      show x.checksum + (line.sum + 10) + c.sum = _
      simp only [List.sum_append, List.sum_cons]
      omega
    refine ⟨line ++ 10 :: c, ?_, ?_, ?_⟩
    · rw [heq, hb]
      conv_lhs => rw [hbuf']
      simp
    · intro f v hfv
      rw [heq] at hfv
      obtain ⟨h1, h2, h3, h4, h5, h6⟩ := hsome f v hfv
      rw [heq]
      refine ⟨?_, ?_, h3, ?_, h5, h6⟩
      · rw [hconsk]
        cases hc : consumedKeys c with
        | nil =>
          rw [hc] at h1
          exact Option.noConfusion h1
        | cons b bs =>
          rw [hc] at h1
          rw [List.getLast?_cons_cons]
          exact h1
      · rw [haccum]
        exact h2
      · rw [h4, hcs]
    · intro hn
      rw [heq] at hn
      obtain ⟨h1, h2, h3, h4⟩ := hnone hn
      rw [heq]
      refine ⟨?_, h2, ?_, ?_⟩
      · rw [hconsk]
        intro hmem
        rcases List.mem_cons.mp hmem with hcon | hcon
        · exact hkeyne hcon.symm
        · exact h1 hcon
      · rw [haccum]
        exact h3
      · rw [h4, hcs]
  | case5 x line rest htl cs hne htab ih =>
    obtain ⟨hb, h10⟩ := takeLine_append x.buffer line rest htl
    have heq : nextFrame x =
        nextFrame { buffer := rest, frame_data := x.frame_data,
                    checksum := cs } := by
      rw [nextFrame_some htl, if_neg hne, if_neg htab]
    obtain ⟨c, hbuf, hsome, hnone⟩ := ih
    have hbuf' : rest = c ++
        (nextFrame { buffer := rest, frame_data := x.frame_data,
                     checksum := cs }).2.buffer := hbuf
    have hlk : lineKey line = none := by
      rw [lineKey, if_neg hne, if_neg htab]
    have hconsk : consumedKeys (line ++ 10 :: c) = consumedKeys c :=
      consumedKeys_append_skip h10 hlk
    have haccum : ∀ fd0, accumKV fd0 (line ++ 10 :: c) = accumKV fd0 c :=
      fun fd0 => accumKV_append_skip fd0 h10 hlk
    have hcs : ({ buffer := rest, frame_data := x.frame_data,
                  checksum := cs } : VeDirectParser).checksum + c.sum =
        x.checksum + (line ++ 10 :: c).sum := by
      show x.checksum + (line.sum + 10) + c.sum = _
      simp only [List.sum_append, List.sum_cons]
      omega
    refine ⟨line ++ 10 :: c, ?_, ?_, ?_⟩
    · rw [heq, hb]
      conv_lhs => rw [hbuf']
      simp
    · intro f v hfv
      rw [heq] at hfv
      obtain ⟨h1, h2, h3, h4, h5, h6⟩ := hsome f v hfv
      rw [heq]
      exact ⟨by rw [hconsk]; exact h1, by rw [haccum]; exact h2, h3,
        by rw [h4, hcs], h5, h6⟩
    · intro hn
      rw [heq] at hn
      obtain ⟨h1, h2, h3, h4⟩ := hnone hn
      rw [heq]
      exact ⟨by rw [hconsk]; exact h1, h2, by rw [haccum]; exact h3,
        by rw [h4, hcs]⟩

theorem nextFrame_some_shrinks (p : VeDirectParser) :
    ∀ f, (nextFrame p).1 = some f →
      (nextFrame p).2.buffer.length < p.buffer.length := by
  induction p using nextFrame.induct with
  | case1 x hnone =>
    intro f hf
    rw [nextFrame_none hnone] at hf
    exact Option.noConfusion hf
  | case2 x rest htl cs ih =>
    intro f hf
    have heq : nextFrame x =
        nextFrame { buffer := rest, frame_data := x.frame_data,
                    checksum := cs } := by
      rw [nextFrame_some htl, if_pos rfl]
    rw [heq] at hf ⊢
    exact Nat.lt_trans (ih f hf) (takeLine_rest_length htl)
  | case3 x line rest htl hne htab key hkeylet =>
    intro f hf
    have hkey : pyStrip (splitTab1 (decodeAscii line)).1 = "Checksum".data :=
      hkeylet
    have heq := nextFrame_some htl
    rw [if_neg hne, if_pos htab, if_pos hkey] at heq
    rw [heq]
    exact takeLine_rest_length htl
  | case4 x line rest htl cs hne htab key value fd hkeynelet ih =>
    intro f hf
    have hkeyne : ¬pyStrip (splitTab1 (decodeAscii line)).1 =
        "Checksum".data := hkeynelet
    have heq : nextFrame x =
        nextFrame { buffer := rest, frame_data := fd, checksum := cs } := by
      rw [nextFrame_some htl, if_neg hne, if_pos htab, if_neg hkeyne]
    rw [heq] at hf ⊢
    exact Nat.lt_trans (ih f hf) (takeLine_rest_length htl)
  | case5 x line rest htl cs hne htab ih =>
    intro f hf
    have heq : nextFrame x =
        nextFrame { buffer := rest, frame_data := x.frame_data,
                    checksum := cs } := by
      rw [nextFrame_some htl, if_neg hne, if_neg htab]
    rw [heq] at hf ⊢
    exact Nat.lt_trans (ih f hf) (takeLine_rest_length htl)

theorem nextFrame_some_reset (p : VeDirectParser) :
    ∀ f, (nextFrame p).1 = some f →
      (nextFrame p).2.frame_data = [] ∧ (nextFrame p).2.checksum = 0 := by
  induction p using nextFrame.induct with
  | case1 x hnone =>
    intro f hf
    rw [nextFrame_none hnone] at hf
    exact Option.noConfusion hf
  | case2 x rest htl cs ih =>
    intro f hf
    have heq : nextFrame x =
        nextFrame { buffer := rest, frame_data := x.frame_data,
                    checksum := cs } := by
      rw [nextFrame_some htl, if_pos rfl]
    rw [heq] at hf ⊢
    exact ih f hf
  | case3 x line rest htl hne htab key hkeylet =>
    intro f hf
    have hkey : pyStrip (splitTab1 (decodeAscii line)).1 = "Checksum".data :=
      hkeylet
    have heq := nextFrame_some htl
    rw [if_neg hne, if_pos htab, if_pos hkey] at heq
    rw [heq]
    exact ⟨rfl, rfl⟩
  | case4 x line rest htl cs hne htab key value fd hkeynelet ih =>
    intro f hf
    have hkeyne : ¬pyStrip (splitTab1 (decodeAscii line)).1 =
        "Checksum".data := hkeynelet
    have heq : nextFrame x =
        nextFrame { buffer := rest, frame_data := fd, checksum := cs } := by
      rw [nextFrame_some htl, if_neg hne, if_pos htab, if_neg hkeyne]
    rw [heq] at hf ⊢
    exact ih f hf
  | case5 x line rest htl cs hne htab ih =>
    intro f hf
    have heq : nextFrame x =
        nextFrame { buffer := rest, frame_data := x.frame_data,
                    checksum := cs } := by
      rw [nextFrame_some htl, if_neg hne, if_neg htab]
    rw [heq] at hf ⊢
    exact ih f hf

/-- A decoded shunt sample (`VeDirectShuntData`): consumed charge in Ah,
current in A, state of charge in percent, and the monotonic read time. -/
structure VeDirectShuntData where
  consumed_ah : ℚ
  current_amps : ℚ
  soc_percent : ℚ
  read_timestamp : ℚ
deriving DecidableEq, Repr

/-- The digits of a decimal numeral, `none` when empty or non-digit. -/
def parseDigits (l : List Char) : Option Nat :=
  if l = [] then none
  else if l.all (fun c => c.isDigit) then
    some (l.foldl (fun acc c => 10 * acc + (c.toNat - 48)) 0)
  else none

/-- Python `int(value)` on an already stripped text, for the integer forms
the VE.Direct fields use: an optional sign followed by decimal digits;
anything else raises `ValueError`, modelled as `none`. -/
def parseInt : List Char → Option Int
  | [] => none
  | c :: ds =>
    if c = '-' then (parseDigits ds).map (fun n => -(n : Int))
    else if c = '+' then (parseDigits ds).map (fun n => (n : Int))
    else (parseDigits (c :: ds)).map (fun n => (n : Int))

/-- `VeDirectShuntMonitor._parse_int`: look the key up in the frame; a
missing or empty value yields `None`; a non-integer value logs and yields
`None`; otherwise the integer divided by the per-field scale. -/
def parseField (frame : List (List Char × List Char)) (key : List Char)
    (divisor : ℚ) : Option ℚ :=
  match lookupKV frame key with
  | none => none
  | some value =>
    if value = [] then none
    else
      match parseInt value with
      | none => none
      | some n => some ((n : ℚ) / divisor)

/-- One drain-loop iteration body of `update()`: a finished frame yields a
new sample only when its checksum flag is true and all three fields (`CE`,
`I`, `SOC`) decode. -/
def frameSample (f : VeFrame) (now : ℚ) : Option VeDirectShuntData :=
  if f.2 then
    match parseField f.1 "CE".data 1000, parseField f.1 "I".data 1000,
        parseField f.1 "SOC".data 10 with
    | some ca, some cu, some soc =>
      some { consumed_ah := ca, current_amps := cu, soc_percent := soc,
             read_timestamp := now }
    | _, _, _ => none
  else none

/-- The `while (frame := self.parser.next_frame()) is not None` loop of
`update()`: drain all complete frames, committing a new retained sample for
every fully decoded valid one. -/
def drainFrames (p : VeDirectParser) (d : Option VeDirectShuntData)
    (now : ℚ) : VeDirectParser × Option VeDirectShuntData :=
  match hf : nextFrame p with
  | (none, q) => (q, d)
  | (some f, q) =>
    drainFrames q
      (match frameSample f now with
       | none => d
       | some s => some s) now
termination_by p.buffer.length
decreasing_by
  have hlt := nextFrame_some_shrinks p f (by rw [hf])
  rw [hf] at hlt
  simpa using hlt

/-- State of `VeDirectShuntMonitor`: whether a serial connection object is
held, the parser, and the retained sample. -/
structure VeDirectShuntMonitor where
  serOpen : Bool
  parser : VeDirectParser
  data : Option VeDirectShuntData

/-- One cycle's environment for `update()`: whether
`_check_for_interference` reports interference, whether `serial.Serial(...)`
succeeds, whether `ser.read` succeeds and what bytes it returns, and the
monotonic clock when a sample is committed (`readTime`) and at the final
freshness check (`now`). -/
structure UpdateEnv where
  interference : Bool
  openOk : Bool
  readOk : Bool
  readBytes : List Nat
  readTime : ℚ
  now : ℚ

/-- The interference step of `update()`: when a connection is held and
`_check_for_interference` fires, the port is closed and dropped. -/
def afterInterference (m : VeDirectShuntMonitor) (env : UpdateEnv) :
    VeDirectShuntMonitor :=
  if m.serOpen && env.interference then { m with serOpen := false } else m

/-- The read step of `update()`: feed the bytes read from the port into the
parser; a read failure (or an empty read) is logged and feeds nothing. -/
def afterRead (m : VeDirectShuntMonitor) (env : UpdateEnv) :
    VeDirectShuntMonitor :=
  if env.readOk && !env.readBytes.isEmpty then
    { m with parser := feed m.parser env.readBytes } else m

/-- The final line of `update()`: return the retained sample only if it is
within the 30-second expiration window of the current monotonic time. -/
def freshnessGate (d : Option VeDirectShuntData) (now : ℚ) :
    Option VeDirectShuntData :=
  match d with
  | none => none
  | some s => if s.read_timestamp < now - 30 then none else some s

/-- The connected path of `update()`: drain all complete frames, committing
fully decoded valid ones with the current monotonic time, then apply the
freshness gate to the retained sample. -/
def updateMain (m : VeDirectShuntMonitor) (env : UpdateEnv) :
    VeDirectShuntMonitor × Option VeDirectShuntData :=
  ({ m with parser := (drainFrames m.parser m.data env.readTime).1,
            data := (drainFrames m.parser m.data env.readTime).2 },
    freshnessGate (drainFrames m.parser m.data env.readTime).2 env.now)

/-- `VeDirectShuntMonitor.update`: on interference close the port; if no
port is open, open it — a failed open is logged and the call returns no
sample for this cycle; otherwise read, parse and serve per `updateMain`. -/
def update (m : VeDirectShuntMonitor) (env : UpdateEnv) :
    VeDirectShuntMonitor × Option VeDirectShuntData :=
  if !(afterInterference m env).serOpen && !env.openOk then
    (afterInterference m env, none)
  else
    updateMain (afterRead { afterInterference m env with serOpen := true } env)
      env

theorem drainFrames_eq_none {p q : VeDirectParser}
    (d : Option VeDirectShuntData) (now : ℚ)
    (hf : nextFrame p = (none, q)) : drainFrames p d now = (q, d) := by
  rw [drainFrames]
  split
  · next q' heq =>
    have hq : q = q' := congrArg Prod.snd (hf.symm.trans heq)
    rw [hq]
  · next f' q' heq =>
    have hcon := congrArg Prod.fst (hf.symm.trans heq)
    exact Option.noConfusion hcon

theorem drainFrames_eq_commit {p q : VeDirectParser} {f : VeFrame}
    (d : Option VeDirectShuntData) (now : ℚ) {s : VeDirectShuntData}
    (hf : nextFrame p = (some f, q)) (hs : frameSample f now = some s) :
    drainFrames p d now = drainFrames q (some s) now := by
  rw [drainFrames]
  split
  · next q' heq =>
    have hcon := congrArg Prod.fst (hf.symm.trans heq)
    exact Option.noConfusion hcon
  · next f' q' heq =>
    have hp := hf.symm.trans heq
    have hfq : f = f' := Option.some.inj (congrArg Prod.fst hp)
    have hqq : q = q' := congrArg Prod.snd hp
    rw [← hfq, ← hqq, hs]

theorem drainFrames_eq_skip {p q : VeDirectParser} {f : VeFrame}
    (d : Option VeDirectShuntData) (now : ℚ)
    (hf : nextFrame p = (some f, q)) (hs : frameSample f now = none) :
    drainFrames p d now = drainFrames q d now := by
  rw [drainFrames]
  split
  · next q' heq =>
    have hcon := congrArg Prod.fst (hf.symm.trans heq)
    exact Option.noConfusion hcon
  · next f' q' heq =>
    have hp := hf.symm.trans heq
    have hfq : f = f' := Option.some.inj (congrArg Prod.fst hp)
    have hqq : q = q' := congrArg Prod.snd hp
    rw [← hfq, ← hqq, hs]

theorem drainFrames_idle {p : VeDirectParser} (d : Option VeDirectShuntData)
    (now : ℚ) (h : takeLine p.buffer = none) : drainFrames p d now = (p, d) :=
  drainFrames_eq_none d now (nextFrame_none h)

theorem frameSample_timestamp {f : VeFrame} {now : ℚ} {s : VeDirectShuntData}
    (h : frameSample f now = some s) : s.read_timestamp = now := by
  unfold frameSample at h
  split at h
  · split at h
    · rw [← Option.some.inj h]
    · exact Option.noConfusion h
  · exact Option.noConfusion h

theorem drainFrames_data (p0 : VeDirectParser) (d0 : Option VeDirectShuntData)
    (now : ℚ) :
    (drainFrames p0 d0 now).2 = d0 ∨
      ∃ s, (drainFrames p0 d0 now).2 = some s ∧ s.read_timestamp = now := by
  suffices H : ∀ n (p : VeDirectParser) (d : Option VeDirectShuntData),
      p.buffer.length = n →
      ((drainFrames p d now).2 = d ∨
        ∃ s, (drainFrames p d now).2 = some s ∧ s.read_timestamp = now) from
    H p0.buffer.length p0 d0 rfl
  intro n
  induction n using Nat.strong_induction_on with
  | _ n ih =>
    intro p d hn
    cases hf : nextFrame p with
    | mk o q =>
      cases o with
      | none =>
        rw [drainFrames_eq_none d now hf]
        exact Or.inl rfl
      | some f =>
        have hlt : q.buffer.length < n := by
          have hh := nextFrame_some_shrinks p f (by rw [hf])
          rw [hf] at hh
          rw [← hn]
          exact hh
        cases hs : frameSample f now with
        | none =>
          rw [drainFrames_eq_skip d now hf hs]
          exact ih q.buffer.length hlt q d rfl
        | some s =>
          rw [drainFrames_eq_commit d now hf hs]
          rcases ih q.buffer.length hlt q (some s) rfl with h | h
          · exact Or.inr ⟨s, h, frameSample_timestamp hs⟩
          · exact Or.inr h

theorem afterInterference_data (m : VeDirectShuntMonitor) (env : UpdateEnv) :
    (afterInterference m env).data = m.data := by
  unfold afterInterference
  split <;> rfl

theorem afterRead_data (m : VeDirectShuntMonitor) (env : UpdateEnv) :
    (afterRead m env).data = m.data := by
  unfold afterRead
  split <;> rfl

theorem freshnessGate_fresh (d : Option VeDirectShuntData) (now : ℚ) :
    (∀ s, freshnessGate d now = some s →
      now - 30 ≤ s.read_timestamp ∧ d = some s) ∧
    (d = none → freshnessGate d now = none) ∧
    (∀ s, d = some s → s.read_timestamp < now - 30 →
      freshnessGate d now = none) := by
  refine ⟨?_, ?_, ?_⟩
  · intro s hs
    unfold freshnessGate at hs
    split at hs
    · exact Option.noConfusion hs
    · next s0 =>
      split at hs
      · exact Option.noConfusion hs
      · next hnl =>
        have h0 := Option.some.inj hs
        rw [← h0]
        exact ⟨le_of_not_lt hnl, rfl⟩
  · intro h
    rw [h]
    rfl
  · intro s hd hst
    rw [hd]
    show (if s.read_timestamp < now - 30 then none else some s) = none
    rw [if_pos hst]

theorem updateMain_freshness (m : VeDirectShuntMonitor) (env : UpdateEnv) :
    (∀ d, (updateMain m env).2 = some d →
      env.now - 30 ≤ d.read_timestamp ∧
      (updateMain m env).1.data = some d) ∧
    ((updateMain m env).1.data = none → (updateMain m env).2 = none) ∧
    (∀ d, (updateMain m env).1.data = some d →
      d.read_timestamp < env.now - 30 → (updateMain m env).2 = none) ∧
    ((updateMain m env).1.data = m.data ∨
      ∃ s, (updateMain m env).1.data = some s ∧
        s.read_timestamp = env.readTime) := by
  obtain ⟨hg1, hg2, hg3⟩ := freshnessGate_fresh
    (drainFrames m.parser m.data env.readTime).2 env.now
  refine ⟨?_, ?_, ?_, ?_⟩
  · intro d hd
    obtain ⟨hle, heq⟩ := hg1 d hd
    exact ⟨hle, heq⟩
  · intro h
    exact hg2 h
  · intro d hd hst
    exact hg3 d hd hst
  · rcases drainFrames_data m.parser m.data env.readTime with h | h
    · exact Or.inl h
    · exact Or.inr h

/-- C7: `update` never returns a sample whose read time is older than the
30-second expiration window before now; when the retained sample is absent
or stale the call returns `none` (even though the stale sample object
remains held in the returned state); and the retained sample is only ever
replaced by a sample freshly committed at this cycle's read time, so a
stale or undecodable frame never overwrites the last good sample. -/
theorem update_freshness (m : VeDirectShuntMonitor) (env : UpdateEnv) :
    (∀ d, (update m env).2 = some d →
      env.now - 30 ≤ d.read_timestamp ∧ (update m env).1.data = some d) ∧
    ((update m env).1.data = none → (update m env).2 = none) ∧
    (∀ d, (update m env).1.data = some d →
      d.read_timestamp < env.now - 30 → (update m env).2 = none) ∧
    ((update m env).1.data = m.data ∨
      ∃ s, (update m env).1.data = some s ∧
        s.read_timestamp = env.readTime) := by
  unfold update
  split
  · refine ⟨?_, ?_, ?_, Or.inl (afterInterference_data m env)⟩
    · intro d hd
      exact Option.noConfusion hd
    · intro _
      rfl
    · intro d _ _
      rfl
  · obtain ⟨h1, h2, h3, h4⟩ := updateMain_freshness
      (afterRead { afterInterference m env with serOpen := true } env) env
    refine ⟨h1, h2, h3, ?_⟩
    rcases h4 with h | h
    · exact Or.inl (h.trans ((afterRead_data _ _).trans
        (afterInterference_data m env)))
    · exact Or.inr h

/-- Witness for C7 at a concrete cycle: an open port, empty read and a
retained sample 10 seconds old; `update` serves it and keeps it retained. -/
theorem update_freshness_witness :
    (update ⟨true, ⟨[], [], 0⟩, some ⟨1, 2, 3, 100⟩⟩
        ⟨false, true, true, [], 100, 110⟩).1.data = some ⟨1, 2, 3, 100⟩ := by
  have h := update_freshness ⟨true, ⟨[], [], 0⟩, some ⟨1, 2, 3, 100⟩⟩
    ⟨false, true, true, [], 100, 110⟩
  refine (h.1 ⟨1, 2, 3, 100⟩ ?_).2
  have hup : update ⟨true, ⟨[], [], 0⟩, some ⟨1, 2, 3, 100⟩⟩
      ⟨false, true, true, [], 100, 110⟩ =
      (⟨true, ⟨[], [], 0⟩, some ⟨1, 2, 3, 100⟩⟩,
        freshnessGate (some ⟨1, 2, 3, 100⟩) 110) := by
    have hidle : drainFrames (⟨[], [], 0⟩ : VeDirectParser)
        (some ⟨1, 2, 3, (100 : ℚ)⟩) 100 =
        (⟨[], [], 0⟩, some ⟨1, 2, 3, 100⟩) := drainFrames_idle _ _ rfl
    simp [update, afterInterference, afterRead, updateMain, hidle]
  rw [hup]
  norm_num [freshnessGate]

/-- C6 counterexample: with a failed port open, `update` returns `none` for
the cycle even though a fresh (10-second-old) last-known-good sample is
retained, contradicting the claim that the sample is still returned. -/
theorem update_open_failure_counterexample :
    (update ⟨false, ⟨[], [], 0⟩, some ⟨1, 2, 3, 100⟩⟩
        ⟨false, false, true, [], 100, 110⟩).2 = none ∧
    (update ⟨false, ⟨[], [], 0⟩, some ⟨1, 2, 3, 100⟩⟩
        ⟨false, false, true, [], 100, 110⟩).1.data = some ⟨1, 2, 3, 100⟩ ∧
    ((110 : ℚ) - 30 ≤ 100) := by
  refine ⟨?_, ?_, by norm_num⟩ <;> rfl

/-- C6 (amended): a failed read on an open, uninterfered connection keeps the
retained sample and still serves it through the freshness gate, losing only
that cycle's new bytes; a failed open keeps the retained sample but returns
no sample for the cycle, leaving the connection closed so it is retried on
the next cycle. -/
theorem update_failure_handling (m : VeDirectShuntMonitor) (env : UpdateEnv)
    (hbuf : takeLine m.parser.buffer = none) :
    (m.serOpen = true → env.interference = false → env.readOk = false →
      (update m env).1.data = m.data ∧
      (update m env).2 = freshnessGate m.data env.now) ∧
    (m.serOpen = false → env.openOk = false →
      (update m env).1.data = m.data ∧ (update m env).2 = none ∧
      (update m env).1.serOpen = false) := by
  obtain ⟨so, pr, da⟩ := m
  constructor
  · intro hso hint hread
    simp only at hso
    subst hso
    have hidle : drainFrames pr da env.readTime = (pr, da) :=
      drainFrames_idle _ _ hbuf
    simp [update, afterInterference, afterRead, updateMain, hint, hread,
      hidle]
  · intro hso hopen
    simp only at hso
    subst hso
    simp [update, afterInterference, hopen]

/-- Witness for the amended C6: a read failure still serves the fresh
retained sample; an open failure returns none for the cycle. -/
theorem update_failure_handling_witness :
    (update ⟨true, ⟨[], [], 0⟩, some ⟨1, 2, 3, 100⟩⟩
        ⟨false, true, false, [], 100, 110⟩).2 = some ⟨1, 2, 3, 100⟩ ∧
    (update ⟨false, ⟨[], [], 0⟩, some ⟨1, 2, 3, 100⟩⟩
        ⟨false, false, false, [], 100, 110⟩).2 = none := by
  constructor
  · have h := (update_failure_handling
      ⟨true, ⟨[], [], 0⟩, some ⟨1, 2, 3, 100⟩⟩
      ⟨false, true, false, [], 100, 110⟩ rfl).1 rfl rfl rfl
    rw [h.2]
    norm_num [freshnessGate]
  · exact ((update_failure_handling
      ⟨false, ⟨[], [], 0⟩, some ⟨1, 2, 3, 100⟩⟩
      ⟨false, false, false, [], 100, 110⟩ rfl).2 rfl rfl).2.1

theorem splitTab1_append {a : List Char} (b : List Char) (h : '\t' ∉ a) :
    splitTab1 (a ++ '\t' :: b) = (a, b) := by
  induction a with
  | nil => simp [splitTab1]
  | cons c cs ih =>
    have hc : ¬(c = '\t') := fun hce => h (hce ▸ List.mem_cons_self c cs)
    rw [List.cons_append, splitTab1, if_neg hc,
      ih (fun hm => h (List.mem_cons_of_mem c hm))]

/-- C10: `next_frame` stores every non-empty line containing at least one tab
as a key/value pair — not only lines with exactly one tab: the key is the
stripped text before the first tab, the value the stripped remainder after
that first tab (which may itself contain further tabs), and a later line
with the same key overwrites the earlier value in the in-progress frame. -/
theorem nextFrame_stores_tab_lines (fdata : List (List Char × List Char))
    (csum : Nat) (a b : List Char) (line rest : List Nat)
    (hsplit : decodeAscii line = a ++ '\t' :: b) (hatab : '\t' ∉ a)
    (hkeyne : pyStrip a ≠ "Checksum".data)
    (h10 : 10 ∉ line) (hrest : takeLine rest = none) :
    (nextFrame ⟨line ++ 10 :: rest, fdata, csum⟩).1 = none ∧
    (nextFrame ⟨line ++ 10 :: rest, fdata, csum⟩).2.frame_data =
      insertKV fdata (pyStrip a) (pyStrip b) ∧
    lookupKV (insertKV fdata (pyStrip a) (pyStrip b)) (pyStrip a) =
      some (pyStrip b) := by
  have hne : line ≠ [] := by
    intro h0
    rw [h0] at hsplit
    exact List.noConfusion (List.append_eq_nil.mp hsplit.symm).2
  have htab : (decodeAscii line).contains '\t' = true := by
    rw [hsplit]
    simp
  have hsp1 : pyStrip (splitTab1 (decodeAscii line)).1 = pyStrip a := by
    rw [hsplit, splitTab1_append b hatab]
  have hsp2 : pyStrip (splitTab1 (decodeAscii line)).2 = pyStrip b := by
    rw [hsplit, splitTab1_append b hatab]
  have htl : takeLine (⟨line ++ 10 :: rest, fdata, csum⟩ :
      VeDirectParser).buffer = some (line, rest) := takeLine_of_append h10
  have heq := nextFrame_some htl
  rw [if_neg hne, if_pos htab, hsp1, hsp2, if_neg hkeyne] at heq
  have hrest' : takeLine
      ({ buffer := rest
         frame_data := insertKV fdata (pyStrip a) (pyStrip b)
         checksum := csum + (line.sum + 10) } : VeDirectParser).buffer =
      none := hrest
  rw [heq, nextFrame_none hrest']
  exact ⟨rfl, rfl, lookupKV_insertKV_self fdata (pyStrip a) (pyStrip b)⟩

/-- Witness for C10 at the two-tab line `"A\tB\tC\n"` over a frame that
already binds key `A`: the stored value is the whole remainder `B\tC` and it
overwrites the old binding. -/
theorem nextFrame_stores_tab_lines_witness :
    (nextFrame ⟨[65, 9, 66, 9, 67, 10], [(['A'], ['o'])], 0⟩).2.frame_data =
      [(['A'], ['B', '\t', 'C'])] := by
  have h := nextFrame_stores_tab_lines [(['A'], ['o'])] 0 ['A']
    ['B', '\t', 'C'] [65, 9, 66, 9, 67] [] (by decide) (by decide)
    (by decide) (by decide) rfl
  have hb : ([65, 9, 66, 9, 67] : List Nat) ++ 10 :: [] =
      [65, 9, 66, 9, 67, 10] := rfl
  rw [hb] at h
  rw [h.2.1]
  decide

/-- A well-formed VE.Direct frame: the line `V<TAB>12` then a `Checksum` line
whose value byte 238 makes the whole frame byte sum 1280 ≡ 0 (mod 256). -/
def goodFrameBytes : List Nat :=
  [86, 9, 49, 50, 10, 67, 104, 101, 99, 107, 115, 117, 109, 9, 238, 10]

theorem decodeAscii_append (a b : List Nat) :
    decodeAscii (a ++ b) = decodeAscii a ++ decodeAscii b :=
  List.map_append _ a b

theorem mk_buffer_eq (b : List Nat) (fd : List (List Char × List Char))
    (cs : Nat) : (⟨b, fd, cs⟩ : VeDirectParser).buffer = b := rfl

theorem mk_checksum_eq (b : List Nat) (fd : List (List Char × List Char))
    (cs : Nat) : (⟨b, fd, cs⟩ : VeDirectParser).checksum = cs := rfl

theorem pyStrip_no_space {l : List Char} (h : ∀ c ∈ l, isPySpace c = false) :
    pyStrip l = l := by
  unfold pyStrip
  have h1 : l.dropWhile isPySpace = l := by
    cases l with
    | nil => rfl
    | cons c cs =>
      rw [List.dropWhile_cons, h c (List.mem_cons_self c cs)]
      simp
  rw [h1]
  have h2 : l.reverse.dropWhile isPySpace = l.reverse := by
    cases hr : l.reverse with
    | nil => rfl
    | cons c cs =>
      have hc : c ∈ l := by
        rw [← List.mem_reverse, hr]
        exact List.mem_cons_self c cs
      rw [List.dropWhile_cons, h c hc]
      simp
  rw [h2, List.reverse_reverse]

theorem feed_overflow_eq (p : VeDirectParser) (data : List Nat)
    (hlen : (p.buffer ++ data).length > 8192) :
    feed p data =
      ⟨(p.buffer ++ data).drop ((p.buffer ++ data).length - 4096), [], 0⟩ := by
  simp only [feed]
  rw [if_pos hlen]

theorem feed_no_overflow_eq (p : VeDirectParser) (data : List Nat)
    (hlen : (p.buffer ++ data).length ≤ 8192) :
    feed p data = ⟨p.buffer ++ data, p.frame_data, p.checksum⟩ := by
  simp only [feed]
  rw [if_neg (not_lt.mpr hlen)]

theorem csTail_eval (fd0 : List (List Char × List Char)) (cs0 : Nat) :
    (nextFrame ⟨[67, 104, 101, 99, 107, 115, 117, 109, 9, 238, 10],
        fd0, cs0⟩).1.map Prod.snd = some ((cs0 + 1076) % 256 == 0) := by
  simp [nextFrame, takeLine, decodeAscii, splitTab1, pyStrip, isPySpace,
    insertKV]

/-- C9 (amended): `feed` is total and, whenever a call makes the buffer
exceed 8192 bytes, truncates it to exactly its most recent 4096 bytes and
resets the in-progress frame mapping and checksum accumulator to
empty/zero; every frame completion also fully resets the mapping and
accumulator, and from a reset parser with an empty buffer a well-formed
frame parses correctly — but the first frame completed after a truncation
may be reported checksum-invalid, because the retained truncated bytes
still enter the checksum accumulator. -/
theorem feed_overflow_truncates_and_recovers :
    (∀ (p : VeDirectParser) (data : List Nat),
      (p.buffer ++ data).length > 8192 →
      (feed p data).buffer =
        (p.buffer ++ data).drop ((p.buffer ++ data).length - 4096) ∧
      (feed p data).buffer.length = 4096 ∧
      (feed p data).frame_data = [] ∧ (feed p data).checksum = 0) ∧
    (∀ (p : VeDirectParser) (f : VeFrame), (nextFrame p).1 = some f →
      (nextFrame p).2.frame_data = [] ∧ (nextFrame p).2.checksum = 0) ∧
    nextFrame ⟨goodFrameBytes, [], 0⟩ =
      (some ([(['V'], ['1', '2']), ("Checksum".data, [Char.ofNat 0xFFFD])],
        true), ⟨[], [], 0⟩) := by
  refine ⟨?_, ?_, ?_⟩
  · intro p data hlen
    have he := feed_overflow_eq p data hlen
    refine ⟨?_, ?_, ?_, ?_⟩
    · rw [he, mk_buffer_eq]
    · rw [he, mk_buffer_eq, List.length_drop]
      omega
    · rw [he]
    · rw [he]
  · exact fun p f hf => nextFrame_some_reset p f hf
  · simp [nextFrame, takeLine, decodeAscii, splitTab1, pyStrip, isPySpace,
      insertKV, goodFrameBytes]

/-- Witness for the amended C9: feeding 8193 unterminated bytes leaves
exactly the most recent 4096 in the buffer, with frame state reset. -/
theorem feed_overflow_truncates_and_recovers_witness :
    (feed ⟨[], [], 0⟩ (List.replicate 8193 0)).buffer.length = 4096 ∧
    (feed ⟨[], [], 0⟩ (List.replicate 8193 0)).frame_data = [] := by
  have h := (feed_overflow_truncates_and_recovers.1 ⟨[], [], 0⟩
    (List.replicate 8193 0)
    (by rw [List.nil_append, List.length_replicate]; norm_num))
  exact ⟨h.2.1, h.2.2.1⟩

/-- C9 counterexample: `goodFrameBytes` parses as checksum-valid from a
reset parser, but fed immediately after a buffer-overflow truncation the
very same well-formed frame is reported checksum-invalid, because the 4096
retained junk bytes (4095 zero bytes and one `A`) enter the checksum
accumulator; so well-formed frames fed right after a truncation are not
always parsed correctly. -/
theorem feed_overflow_counterexample :
    (nextFrame ⟨goodFrameBytes, [], 0⟩).1.map Prod.snd = some true ∧
    (nextFrame (feed (feed ⟨[], [], 0⟩ (List.replicate 8192 0 ++ [65]))
        goodFrameBytes)).1.map Prod.snd = some false := by
  constructor
  · simp [nextFrame, takeLine, decodeAscii, splitTab1, pyStrip, isPySpace,
      insertKV, goodFrameBytes]
  · have h1 : feed ⟨[], [], 0⟩ (List.replicate 8192 0 ++ [65]) =
        ⟨List.replicate 4095 0 ++ [65], [], 0⟩ := by
      rw [feed_overflow_eq ⟨[], [], 0⟩ (List.replicate 8192 0 ++ [65])
        (by rw [List.nil_append, List.length_append, List.length_replicate]
            decide)]
      rw [show ((⟨[], [], 0⟩ : VeDirectParser).buffer ++
          (List.replicate 8192 0 ++ [65])) = List.replicate 8192 0 ++ [65]
        from rfl]
      rw [List.length_append, List.length_replicate]
      rw [show (8192 + ([65] : List Nat).length - 4096 : Nat) = 4097 from rfl]
      rw [List.drop_append_of_le_length
        (by rw [List.length_replicate]; omega)]
      rw [List.drop_replicate]
    have h2 : feed ⟨List.replicate 4095 0 ++ [65], [], 0⟩ goodFrameBytes =
        ⟨(List.replicate 4095 0 ++ [65]) ++ goodFrameBytes, [], 0⟩ := by
      rw [feed_no_overflow_eq ⟨List.replicate 4095 0 ++ [65], [], 0⟩
        goodFrameBytes
        (by show ((List.replicate 4095 0 ++ [65]) ++ goodFrameBytes).length
              ≤ 8192
            rw [List.length_append, List.length_append,
              List.length_replicate]
            decide)]
    rw [h1, h2]
    have hsplitbuf : (List.replicate 4095 0 ++ [65]) ++ goodFrameBytes =
        ((List.replicate 4095 0 ++ [65]) ++ [86, 9, 49, 50]) ++ 10 ::
          [67, 104, 101, 99, 107, 115, 117, 109, 9, 238, 10] := by
      rw [show goodFrameBytes = [86, 9, 49, 50] ++ 10 ::
        [67, 104, 101, 99, 107, 115, 117, 109, 9, 238, 10] from rfl,
        ← List.append_assoc]
    have h10L : (10 : Nat) ∉
        (List.replicate 4095 0 ++ [65]) ++ [86, 9, 49, 50] := by
      intro hm
      rcases List.mem_append.mp hm with hm | hm
      · rcases List.mem_append.mp hm with hm | hm
        · exact absurd (List.mem_replicate.mp hm).2 (by decide)
        · exact absurd hm (by decide)
      · exact absurd hm (by decide)
    have hne : (List.replicate 4095 0 ++ [65]) ++ [86, 9, 49, 50] ≠ [] := by
      intro h0
      have hl := congrArg List.length h0
      rw [List.length_append, List.length_append,
        List.length_replicate] at hl
      exact absurd hl (by decide)
    have hjunkdec : decodeAscii (List.replicate 4095 0 ++ [65]) =
        List.replicate 4095 (Char.ofNat 0) ++ ['A'] := by
      rw [decodeAscii_append, decodeAscii, List.map_replicate]
      rfl
    have hdec : decodeAscii ((List.replicate 4095 0 ++ [65]) ++
        [86, 9, 49, 50]) =
        (decodeAscii (List.replicate 4095 0 ++ [65]) ++ ['V']) ++
          '\t' :: ['1', '2'] := by
      rw [decodeAscii_append,
        show decodeAscii [86, 9, 49, 50] = ['V'] ++ '\t' :: ['1', '2']
          from rfl, ← List.append_assoc]
    have hnotab : '\t' ∉
        decodeAscii (List.replicate 4095 0 ++ [65]) ++ ['V'] := by
      intro hm
      rw [hjunkdec] at hm
      rcases List.mem_append.mp hm with hm | hm
      · rcases List.mem_append.mp hm with hm | hm
        · exact absurd (List.mem_replicate.mp hm).2 (by decide)
        · exact absurd hm (by decide)
      · exact absurd hm (by decide)
    have htab : (decodeAscii ((List.replicate 4095 0 ++ [65]) ++
        [86, 9, 49, 50])).contains '\t' = true := by
      rw [hdec]
      exact List.elem_eq_true_of_mem
        (List.mem_append_right _ (List.mem_cons_self _ _))
    have hsp : splitTab1 (decodeAscii ((List.replicate 4095 0 ++ [65]) ++
        [86, 9, 49, 50])) =
        (decodeAscii (List.replicate 4095 0 ++ [65]) ++ ['V'],
          ['1', '2']) := by
      rw [hdec]
      exact splitTab1_append _ hnotab
    have hnospace : ∀ c ∈ decodeAscii (List.replicate 4095 0 ++ [65]) ++
        ['V'], isPySpace c = false := by
      intro c hc
      rw [hjunkdec] at hc
      rcases List.mem_append.mp hc with hc | hc
      · rcases List.mem_append.mp hc with hc | hc
        · rw [(List.mem_replicate.mp hc).2]
          decide
        · rw [show c = 'A' from by simpa using hc]
          decide
      · rw [show c = 'V' from by simpa using hc]
        decide
    have hkeyne : ¬pyStrip (splitTab1 (decodeAscii
        ((List.replicate 4095 0 ++ [65]) ++ [86, 9, 49, 50]))).1 =
        "Checksum".data := by
      rw [hsp]
      intro hcon
      rw [pyStrip_no_space hnospace, hjunkdec] at hcon
      have hlencon : ((List.replicate 4095 (Char.ofNat 0) ++ ['A']) ++
          ['V']).length = "Checksum".data.length :=
        congrArg List.length hcon
      rw [List.length_append, List.length_append,
        List.length_replicate] at hlencon
      exact absurd hlencon (by decide)
    have htl' : takeLine ((⟨(List.replicate 4095 0 ++ [65]) ++
        goodFrameBytes, [], 0⟩ : VeDirectParser)).buffer =
        some ((List.replicate 4095 0 ++ [65]) ++ [86, 9, 49, 50],
          [67, 104, 101, 99, 107, 115, 117, 109, 9, 238, 10]) := by
      show takeLine ((List.replicate 4095 0 ++ [65]) ++ goodFrameBytes) = _
      rw [hsplitbuf]
      exact takeLine_of_append h10L
    have heq := nextFrame_some htl'
    rw [if_neg hne, if_pos htab, if_neg hkeyne] at heq
    rw [heq, csTail_eval]
    have hcs : (⟨(List.replicate 4095 0 ++ [65]) ++ goodFrameBytes, [], 0⟩ :
        VeDirectParser).checksum +
        (((List.replicate 4095 0 ++ [65]) ++ [86, 9, 49, 50]).sum + 10) =
        269 := by
      rw [mk_checksum_eq, List.sum_append, List.sum_append,
        List.sum_replicate, smul_eq_mul]
      decide
    rw [hcs]
    rfl
